import Mathlib

/-!
Shallow embedding of the random structured-test-data generator library
(`src/src/resources/generator.h`) and proofs of its specified properties.

The process-wide random engine is modelled as an explicit stream of raw
draws (`RS`); a uniform draw over `[lo, hi]` is modelled as
`lo + raw % (hi - lo + 1)`.  Loops that the C++ runs unboundedly
(rejection sampling) take a `fuel` argument; running out of fuel is the
model's rendering of non-termination and is reported as `GErr.fuelOut`.
-/

/-- Random stream: successive raw outputs of the engine. -/
abbrev RS := List Nat

/-- Draw one raw value from the stream (0 when exhausted). -/
def rnext (s : RS) : Nat × RS := (s.headD 0, s.tail)

/-- Failure kinds.  `rangeTooSmall` and `invalidVertexCount` embed the
`invalid_argument` throws of `generator.h`; `emptyPool` and `tooManyEdges`
come from the spec's error taxonomy (the code never raises them);
`oobAccess` models undefined behaviour from an out-of-range `operator[]`;
`fuelOut` is the model's rendering of a rejection loop that has not yet
terminated. -/
inductive GErr where
  | rangeTooSmall
  | invalidVertexCount
  | invalidGraphParameters
  | emptyPool
  | tooManyEdges
  | oobAccess
  | fuelOut
  deriving DecidableEq, Repr

/-- Embeds `template<typename T> T random(T l, T r)` (generator.h:30-53) at an
integral type: reversed bounds are swapped, then a value uniform over
`[lo, hi]` is drawn, modelled as `lo + raw % (hi - lo + 1)`. -/
def randInt (l r : Int) (s : RS) : Int × RS :=
  let lo := if r < l then r else l
  let hi := if r < l then l else r
  let (x, s') := rnext s
  (lo + ((x % (hi + 1 - lo).toNat : Nat) : Int), s')

theorem randInt_bounds {l r : Int} (s : RS) (h : l ≤ r) :
    l ≤ (randInt l r s).1 ∧ (randInt l r s).1 ≤ r := by
  have hlt : ¬ r < l := not_lt.mpr h
  have hpos : 0 < (r + 1 - l).toNat := by omega
  have hmod : (rnext s).1 % (r + 1 - l).toNat < (r + 1 - l).toNat :=
    Nat.mod_lt _ hpos
  simp only [randInt, hlt, if_false]
  omega

/-- Models `std::swap(a[i], a[j])` on a list; out-of-range positions leave the list
unchanged (such calls never occur in the embedded code). -/
def swapL (a : List Int) (i j : Nat) : List Int :=
  if i < a.length ∧ j < a.length then
    (a.set i (a.getD j 0)).set j (a.getD i 0)
  else a

theorem getD_set_of_lt (a : List Int) (i j : Nat) (y : Int) (hj : j < a.length) :
    (a.set i y).getD j 0 = if i = j then y else a.getD j 0 := by
  rw [List.getD_eq_getElem?_getD, List.getD_eq_getElem?_getD,
    ← List.get?_eq_getElem?, ← List.get?_eq_getElem?, List.get?_set_of_lt _ _ hj]
  split <;> rfl

theorem count_set_add (a : List Int) (n : Nat) (h : n < a.length) (b x : Int) :
    (a.set n b).count x + (if a.getD n 0 = x then 1 else 0)
      = a.count x + (if b = x then 1 else 0) := by
  have hd : a.getD n 0 = a[n] := by
    rw [List.getD_eq_getElem?_getD, List.getElem?_eq_getElem h]; rfl
  rw [List.set_eq_take_cons_drop b h]
  conv_rhs => rw [← List.take_append_drop n a, ← List.getElem_cons_drop a n h]
  simp only [List.count_append, List.count_cons, hd]
  by_cases h1 : a[n] = x <;> by_cases h2 : b = x <;>
    simp [h1, h2, beq_iff_eq] <;> omega

theorem swapL_perm (a : List Int) (i j : Nat) : (swapL a i j).Perm a := by
  unfold swapL
  split
  case isTrue h =>
    rcases h with ⟨hi, hj⟩
    rw [List.perm_iff_count]
    intro x
    have e1' := count_set_add a i hi (a.getD j 0) x
    have hlen : (a.set i (a.getD j 0)).length = a.length := by simp
    have e2' := count_set_add (a.set i (a.getD j 0)) j (by omega) (a.getD i 0) x
    have hg : (a.set i (a.getD j 0)).getD j 0 = a.getD j 0 := by
      rw [getD_set_of_lt a i j _ hj]; split <;> rfl
    rw [hg] at e2'
    have hdi : a.getD i 0 = a[i] := by
      rw [List.getD_eq_getElem?_getD, List.getElem?_eq_getElem hi]; rfl
    omega
  case isFalse h => exact List.Perm.refl a

/-- The loop of `std::shuffle(first, last, g)` (Fisher–Yates): for position
`i = n-1` down to `1`, swap `a[i]` with `a[uniform(0, i)]`.  The counter is the
position currently being fixed. -/
def fyAux : Nat → List Int → RS → List Int × RS
  | 0, a, s => (a, s)
  | i + 1, a, s =>
    let (x, s') := rnext s
    fyAux i (swapL a (i + 1) (x % (i + 2))) s'

/-- Models `std::shuffle` over a whole list. -/
def shuffleL (a : List Int) (s : RS) : List Int × RS := fyAux (a.length - 1) a s

theorem fyAux_perm (k : Nat) : ∀ (a : List Int) (s : RS), ((fyAux k a s).1).Perm a := by
  induction k with
  | zero => intro a s; exact List.Perm.refl a
  | succ i ih =>
    intro a s
    exact (ih _ _).trans (swapL_perm a (i + 1) _)

theorem shuffleL_perm (a : List Int) (s : RS) : ((shuffleL a s).1).Perm a :=
  fyAux_perm _ a s

/-- Models `std::iota` from `start`: the sequence start, start+1, ..., start+n-1. -/
def iotaL (n : Nat) (start : Int) : List Int :=
  (List.range n).map (fun (i : Nat) => start + (i : Int))

theorem iotaL_length (n : Nat) (start : Int) : (iotaL n start).length = n := by
  rw [iotaL, List.length_map, List.length_range]

theorem mem_iotaL {n : Nat} {start x : Int} :
    x ∈ iotaL n start ↔ start ≤ x ∧ x < start + (n : Int) := by
  rw [iotaL, List.mem_map]
  constructor
  · rintro ⟨i, hi, rfl⟩
    rw [List.mem_range] at hi
    omega
  · rintro ⟨h1, h2⟩
    refine ⟨(x - start).toNat, ?_, ?_⟩
    · rw [List.mem_range]; omega
    · omega

theorem iotaL_nodup (n : Nat) (start : Int) : (iotaL n start).Nodup := by
  rw [iotaL]
  refine List.Nodup.map ?_ (List.nodup_range n)
  intro i j h
  have h2 : (i : Int) = (j : Int) := add_left_cancel h
  omega

theorem iotaL_sorted (n : Nat) (start : Int) :
    (iotaL n start).Sorted (· ≤ ·) := by
  rw [iotaL]
  refine List.pairwise_map.mpr ?_
  refine (List.sorted_lt_range n).imp ?_
  intro i j h
  omega

/-- Embeds `permutation::permutation(int n, int start = 1)`
(generator.h:148-153): resize to n, `iota` from `start`, then shuffle. -/
def permGen (n : Nat) (start : Int) (s : RS) : List Int × RS :=
  shuffleL (iotaL n start) s

theorem permGen_perm (n : Nat) (start : Int) (s : RS) :
    ((permGen n start s).1).Perm (iotaL n start) :=
  shuffleL_perm _ s

theorem permGen_length (n : Nat) (start : Int) (s : RS) :
    (permGen n start s).1.length = n := by
  rw [(permGen_perm n start s).length_eq, iotaL_length]

theorem permGen_nodup (n : Nat) (start : Int) (s : RS) :
    (permGen n start s).1.Nodup :=
  ((permGen_perm n start s).nodup_iff).mpr (iotaL_nodup n start)

theorem permGen_mem (n : Nat) (start : Int) (s : RS) {x : Int} :
    x ∈ (permGen n start s).1 ↔ start ≤ x ∧ x < start + (n : Int) := by
  rw [(permGen_perm n start s).mem_iff, mem_iotaL]

theorem randInt_comm (l r : Int) (s : RS) : randInt l r s = randInt r l s := by
  unfold randInt
  rcases lt_trichotomy l r with h | h | h
  · have h1 : ¬ r < l := by omega
    simp only [h1, h, if_true, if_false]
  · subst h
    simp only [lt_irrefl, if_false]
  · have h2 : ¬ l < r := by omega
    simp only [h2, h, if_true, if_false]

/-- C8: reversed bounds are swapped before sampling, so `random(l, r)` and
`random(r, l)` are the same function of the random stream; in particular
`random(7, 3)` equals `random(3, 7)` on every stream. -/
theorem random_swap_bounds :
    (∀ (l r : Int) (s : RS), randInt l r s = randInt r l s)
    ∧ (∀ s : RS, randInt 7 3 s = randInt 3 7 s) :=
  ⟨randInt_comm, fun s => randInt_comm 7 3 s⟩

/-- C7: `permutation(n, start)` is a bijection onto [start, start+n): it has
length n, sorting it yields exactly the identity sequence
start, start+1, ..., start+n-1, and every value of that range appears in it
exactly once (values outside appear zero times). -/
theorem permutation_bijection (n : Nat) (start : Int) (s : RS) :
    (permGen n start s).1.length = n
    ∧ (permGen n start s).1.mergeSort (fun a b => decide (a ≤ b)) = iotaL n start
    ∧ (∀ x : Int,
        List.count x (permGen n start s).1 = if x ∈ iotaL n start then 1 else 0) := by
  refine ⟨permGen_length n start s, ?_, ?_⟩
  · have hperm : ((permGen n start s).1.mergeSort (fun a b => decide (a ≤ b))).Perm
        (iotaL n start) :=
      (List.mergeSort_perm _ _).trans (permGen_perm n start s)
    exact List.eq_of_perm_of_sorted hperm (List.sorted_mergeSort' _) (iotaL_sorted n start)
  · intro x
    by_cases hx : x ∈ iotaL n start
    · rw [if_pos hx, (permGen_perm n start s).count_eq]
      exact List.count_eq_one_of_mem (iotaL_nodup n start) hx
    · rw [if_neg hx]
      refine List.count_eq_zero_of_not_mem ?_
      rw [(permGen_perm n start s).mem_iff]
      exact hx

/-- Embeds `T random(const vector<T>& a)` and `char random(const string& s)`
(generator.h:62-77): draw index `random(0, size - 1)`, then apply the
unchecked `operator[]`; an out-of-range index is undefined behaviour,
modelled as `GErr.oobAccess`. -/
def sampleFrom (a : List Int) (s : RS) : Except GErr (Int × RS) :=
  let i := (randInt 0 ((a.length : Int) - 1) s).1
  let s' := (randInt 0 ((a.length : Int) - 1) s).2
  if h : 0 ≤ i ∧ i.toNat < a.length then
    .ok (a.get ⟨i.toNat, h.2⟩, s')
  else
    .error .oobAccess

/-- C9 (amended): on a non-empty pool `sampleFrom` returns an element of the
pool; on an empty pool it computes index `random(0, -1)` (which the bound
swap turns into a draw from [-1, 0]) and performs an out-of-bounds access -
there is no `EmptyPool` check. -/
theorem sampleFrom_pool (a : List Int) (s : RS) :
    (a ≠ [] → ∃ x s', sampleFrom a s = .ok (x, s') ∧ x ∈ a)
    ∧ (a = [] → sampleFrom a s = .error .oobAccess)
    ∧ GErr.oobAccess ≠ GErr.emptyPool := by
  refine ⟨?_, ?_, by decide⟩
  · intro ha
    have hlen : 1 ≤ a.length := by
      cases a with
      | nil => exact absurd rfl ha
      | cons x t => exact Nat.succ_le_succ (Nat.zero_le _)
    have hb := randInt_bounds (l := 0) (r := (a.length : Int) - 1) s (by omega)
    have hcond : 0 ≤ (randInt 0 ((a.length : Int) - 1) s).1
        ∧ ((randInt 0 ((a.length : Int) - 1) s).1).toNat < a.length := by omega
    unfold sampleFrom
    rw [dif_pos hcond]
    exact ⟨_, _, rfl, List.get_mem _ _ _⟩
  · intro ha
    subst ha
    unfold sampleFrom
    rw [dif_neg]
    intro hcond
    simp only [List.length_nil] at hcond
    omega

/-- C9 witness: at concrete inputs, a non-empty pool yields one of its
elements and the empty pool hits the out-of-bounds access. -/
theorem sampleFrom_pool_witness :
    (∃ x s', sampleFrom [5] [0] = .ok (x, s') ∧ x ∈ [5])
    ∧ sampleFrom ([] : List Int) [1] = .error .oobAccess :=
  ⟨(sampleFrom_pool [5] [0]).1 (by decide), (sampleFrom_pool [] [1]).2.1 rfl⟩

/-- C9 counterexample: on the empty pool the code does not fail with
`EmptyPool`; it reaches an out-of-bounds element access. -/
theorem sampleFrom_empty_cex :
    sampleFrom [] [0] = .error .oobAccess ∧ GErr.oobAccess ≠ GErr.emptyPool :=
  ⟨rfl, by decide⟩

/-- Dense branch of `unique_vector` (generator.h:195-201): materialize the
whole domain [l, r], shuffle it, take the first n. -/
def usShuffleAll (n : Nat) (l r : Int) (s : RS) : List Int × RS :=
  ((shuffleL (iotaL (r - l + 1).toNat l) s).1.take n,
    (shuffleL (iotaL (r - l + 1).toNat l) s).2)

/-- Sparse branch of `unique_vector` (generator.h:203-208): rejection-sample
into the set until it holds n values.  The `unordered_set` is modelled in
insertion order; `fuel` bounds the loop the C++ runs unboundedly. -/
def usRejection : Nat → Nat → Int → Int → List Int → RS → Except GErr (List Int × RS)
  | 0, n, _, _, acc, s => if n ≤ acc.length then .ok (acc, s) else .error .fuelOut
  | fuel + 1, n, l, r, acc, s =>
    if acc.length < n then
      usRejection fuel n l r
        (if (randInt l r s).1 ∈ acc then acc else acc ++ [(randInt l r s).1])
        (randInt l r s).2
    else .ok (acc, s)

/-- Embeds `unique_vector::unique_vector(size_t n, T l, T r)`
(generator.h:188-209): swap reversed bounds, fail when the domain has fewer
than n values, then pick shuffle-all or rejection sampling by the 10x
density threshold. -/
def uniqueSample (n : Nat) (l r : Int) (fuel : Nat) (s : RS) : Except GErr (List Int × RS) :=
  let lo := if r < l then r else l
  let hi := if r < l then l else r
  if (n : Int) > hi - lo + 1 then .error .rangeTooSmall
  else if hi - lo + 1 ≤ 10 * (n : Int) then .ok (usShuffleAll n lo hi s)
  else usRejection fuel n lo hi [] s

theorem usShuffleAll_spec (n : Nat) (l r : Int) (s : RS) (h : l ≤ r)
    (hn : (n : Int) ≤ r - l + 1) :
    (usShuffleAll n l r s).1.length = n ∧ (usShuffleAll n l r s).1.Nodup
    ∧ ∀ x ∈ (usShuffleAll n l r s).1, l ≤ x ∧ x ≤ r := by
  have hP := shuffleL_perm (iotaL (r - l + 1).toNat l) s
  have hlen : (shuffleL (iotaL (r - l + 1).toNat l) s).1.length = (r - l + 1).toNat := by
    rw [hP.length_eq, iotaL_length]
  refine ⟨?_, ?_, ?_⟩
  · show ((shuffleL (iotaL (r - l + 1).toNat l) s).1.take n).length = n
    rw [List.length_take, hlen]
    omega
  · exact List.Nodup.sublist (List.take_sublist _ _) (hP.nodup_iff.mpr (iotaL_nodup _ _))
  · intro x hx
    have hx2 : x ∈ (shuffleL (iotaL (r - l + 1).toNat l) s).1 :=
      List.mem_of_mem_take hx
    rw [hP.mem_iff, mem_iotaL] at hx2
    omega

theorem usRejection_ok (fuel : Nat) :
    ∀ (n : Nat) (l r : Int) (acc : List Int) (s : RS) (v : List Int) (t : RS),
    l ≤ r → acc.Nodup → (∀ x ∈ acc, l ≤ x ∧ x ≤ r) → acc.length ≤ n →
    usRejection fuel n l r acc s = .ok (v, t) →
    v.length = n ∧ v.Nodup ∧ ∀ x ∈ v, l ≤ x ∧ x ≤ r := by
  induction fuel with
  | zero =>
    intro n l r acc s v t hlr hnd hrange hle h
    unfold usRejection at h
    by_cases hc : n ≤ acc.length
    · rw [if_pos hc] at h
      cases h
      exact ⟨by omega, hnd, hrange⟩
    · rw [if_neg hc] at h
      cases h
  | succ fuel ih =>
    intro n l r acc s v t hlr hnd hrange hle h
    unfold usRejection at h
    by_cases hc : acc.length < n
    · rw [if_pos hc] at h
      by_cases hm : (randInt l r s).1 ∈ acc
      · rw [if_pos hm] at h
        exact ih n l r acc _ v t hlr hnd hrange hle h
      · rw [if_neg hm] at h
        have hb := randInt_bounds (l := l) (r := r) s hlr
        refine ih n l r (acc ++ [(randInt l r s).1]) _ v t hlr ?_ ?_ ?_ h
        · simp [List.nodup_append, hnd, hm]
        · intro x hx
          rcases List.mem_append.mp hx with hx1 | hx1
          · exact hrange x hx1
          · rw [List.mem_singleton] at hx1
            subst hx1
            exact hb
        · rw [List.length_append, List.length_singleton]
          omega
    · rw [if_neg hc] at h
      cases h
      exact ⟨by omega, hnd, hrange⟩

theorem usRejection_ne_rts (fuel : Nat) :
    ∀ (n : Nat) (l r : Int) (acc : List Int) (s : RS),
    usRejection fuel n l r acc s ≠ .error .rangeTooSmall := by
  induction fuel with
  | zero =>
    intro n l r acc s h
    unfold usRejection at h
    by_cases hc : n ≤ acc.length
    · rw [if_pos hc] at h; cases h
    · rw [if_neg hc] at h; cases h
  | succ fuel ih =>
    intro n l r acc s h
    unfold usRejection at h
    by_cases hc : acc.length < n
    · rw [if_pos hc] at h
      exact ih n l r _ _ h
    · rw [if_neg hc] at h; cases h

theorem uniqueSample_err (n : Nat) (l r : Int) (fuel : Nat) (s : RS) (h : l ≤ r)
    (hgt : (n : Int) > r - l + 1) :
    uniqueSample n l r fuel s = .error .rangeTooSmall := by
  have hlt : ¬ r < l := not_lt.mpr h
  simp only [uniqueSample, hlt, if_false]
  rw [if_pos hgt]

theorem uniqueSample_dense (n : Nat) (l r : Int) (fuel : Nat) (s : RS) (h : l ≤ r)
    (hn : (n : Int) ≤ r - l + 1) (hd : r - l + 1 ≤ 10 * (n : Int)) :
    uniqueSample n l r fuel s = .ok (usShuffleAll n l r s) := by
  have hlt : ¬ r < l := not_lt.mpr h
  simp only [uniqueSample, hlt, if_false]
  rw [if_neg (by omega), if_pos hd]

theorem uniqueSample_sparse (n : Nat) (l r : Int) (fuel : Nat) (s : RS) (h : l ≤ r)
    (hn : (n : Int) ≤ r - l + 1) (hd : ¬ r - l + 1 ≤ 10 * (n : Int)) :
    uniqueSample n l r fuel s = usRejection fuel n l r [] s := by
  have hlt : ¬ r < l := not_lt.mpr h
  simp only [uniqueSample, hlt, if_false]
  rw [if_neg (by omega), if_neg hd]

theorem uniqueSample_ok (n : Nat) (l r : Int) (fuel : Nat) (s : RS) (h : l ≤ r)
    (v : List Int) (t : RS) (hok : uniqueSample n l r fuel s = .ok (v, t)) :
    (n : Int) ≤ r - l + 1 ∧ v.length = n ∧ v.Nodup ∧ ∀ x ∈ v, l ≤ x ∧ x ≤ r := by
  by_cases hgt : (n : Int) > r - l + 1
  · rw [uniqueSample_err n l r fuel s h hgt] at hok
    cases hok
  · have hn : (n : Int) ≤ r - l + 1 := by omega
    by_cases hd : r - l + 1 ≤ 10 * (n : Int)
    · rw [uniqueSample_dense n l r fuel s h hn hd] at hok
      have hspec := usShuffleAll_spec n l r s h hn
      cases hok
      exact ⟨hn, hspec⟩
    · rw [uniqueSample_sparse n l r fuel s h hn hd] at hok
      exact ⟨hn, usRejection_ok fuel n l r [] s v t h (List.nodup_nil)
        (by intro x hx; cases hx) (by simp) hok⟩

/-- C3: for lo ≤ hi, `uniqueSample(n, lo, hi)` fails with `RangeTooSmall`
exactly when n exceeds the domain size hi - lo + 1, and any returned
collection has exactly n pairwise-distinct values, all inside [lo, hi]. -/
theorem uniqueSample_contract (n : Nat) (l r : Int) (fuel : Nat) (s : RS) (h : l ≤ r) :
    ((n : Int) > r - l + 1 → uniqueSample n l r fuel s = .error .rangeTooSmall)
    ∧ ((n : Int) ≤ r - l + 1 → uniqueSample n l r fuel s ≠ .error .rangeTooSmall)
    ∧ (∀ v t, uniqueSample n l r fuel s = .ok (v, t) →
        (n : Int) ≤ r - l + 1 ∧ v.length = n ∧ v.Nodup ∧ ∀ x ∈ v, l ≤ x ∧ x ≤ r) := by
  refine ⟨uniqueSample_err n l r fuel s h, ?_, fun v t => uniqueSample_ok n l r fuel s h v t⟩
  intro hn
  by_cases hd : r - l + 1 ≤ 10 * (n : Int)
  · rw [uniqueSample_dense n l r fuel s h hn hd]
    intro hcon
    cases hcon
  · rw [uniqueSample_sparse n l r fuel s h hn hd]
    exact usRejection_ne_rts fuel n l r [] s

/-- C3 witness: a concrete valid call (n = 3, domain [1, 5]) satisfies the
contract; its hypothesis 1 ≤ 5 is discharged by computation. -/
theorem uniqueSample_contract_witness :
    (((3 : Nat) : Int) > 5 - 1 + 1 → uniqueSample 3 1 5 0 [] = .error .rangeTooSmall)
    ∧ (((3 : Nat) : Int) ≤ 5 - 1 + 1 → uniqueSample 3 1 5 0 [] ≠ .error .rangeTooSmall)
    ∧ (∀ v t, uniqueSample 3 1 5 0 [] = .ok (v, t) →
        ((3 : Nat) : Int) ≤ 5 - 1 + 1 ∧ v.length = 3 ∧ v.Nodup ∧ ∀ x ∈ v, 1 ≤ x ∧ x ≤ 5) :=
  uniqueSample_contract 3 1 5 0 [] (by decide)

theorem nodup_getD_ne (p : List Int) (hp : p.Nodup) {i j : Nat}
    (hi : i < p.length) (hj : j < p.length) (hne : i ≠ j) :
    p.getD i 0 ≠ p.getD j 0 := by
  rw [List.getD_eq_getElem p 0 hi, List.getD_eq_getElem p 0 hj]
  intro h
  exact hne ((hp.getElem_inj_iff).mp h)

/-- The loop of `Tree::generateEdges` (generator.h:409-414): for each index i
of the list (in order), attach `perm[i]` to `perm[random(0, i-1)]`. -/
def treeFold (p : List Int) : List Nat → List (Int × Int) → RS → List (Int × Int) × RS
  | [], es, s => (es, s)
  | i :: rest, es, s =>
    treeFold p rest
      (es ++ [(p.getD i 0, p.getD ((randInt 0 ((i : Int) - 1) s).1).toNat 0)])
      (randInt 0 ((i : Int) - 1) s).2

/-- Embeds `Tree::generateEdges(int n)` (generator.h:402-415): fail on a
non-positive vertex count, generate a permutation of the n labels, then
attach each later vertex to an earlier one. -/
def treeGen (n : Nat) (s : RS) : Except GErr (List (Int × Int) × RS) :=
  if n = 0 then .error .invalidVertexCount
  else .ok (treeFold (permGen n 1 s).1 (List.range' 1 (n - 1)) [] (permGen n 1 s).2)

theorem randIdx_lt (a : Nat) (s : RS) (ha : 1 ≤ a) :
    0 ≤ (randInt 0 ((a : Int) - 1) s).1
    ∧ ((randInt 0 ((a : Int) - 1) s).1).toNat < a := by
  have hb := randInt_bounds (l := 0) (r := (a : Int) - 1) s (by omega)
  omega

theorem treeFold_shape (p : List Int) :
    ∀ (t a : Nat) (es : List (Int × Int)) (s : RS), 1 ≤ a →
    ∃ tail, (treeFold p (List.range' a t) es s).1 = es ++ tail ∧ tail.length = t ∧
      ∀ q, q < t → ∃ j, j < a + q ∧
        tail.getD q (0, 0) = (p.getD (a + q) 0, p.getD j 0) := by
  intro t
  induction t with
  | zero =>
    intro a es s ha
    refine ⟨[], ?_, rfl, ?_⟩
    · show (treeFold p [] es s).1 = es ++ []
      rw [List.append_nil]
      rfl
    · intro q hq
      omega
  | succ t ih =>
    intro a es s ha
    rw [List.range'_succ]
    have hj := randIdx_lt a s ha
    obtain ⟨tail', h1, h2, h3⟩ := ih (a + 1)
      (es ++ [(p.getD a 0, p.getD ((randInt 0 ((a : Int) - 1) s).1).toNat 0)])
      ((randInt 0 ((a : Int) - 1) s).2) (by omega)
    refine ⟨(p.getD a 0, p.getD ((randInt 0 ((a : Int) - 1) s).1).toNat 0) :: tail', ?_, ?_, ?_⟩
    · show (treeFold p (List.range' (a + 1) t)
          (es ++ [(p.getD a 0, p.getD ((randInt 0 ((a : Int) - 1) s).1).toNat 0)])
          ((randInt 0 ((a : Int) - 1) s).2)).1 = _
      rw [h1, List.append_assoc]
      rfl
    · rw [List.length_cons, h2]
    · intro q hq
      cases q with
      | zero =>
        refine ⟨((randInt 0 ((a : Int) - 1) s).1).toNat, by omega, ?_⟩
        rw [List.getD_cons_zero]
        simp
      | succ q' =>
        obtain ⟨j, hj1, hj2⟩ := h3 q' (by omega)
        have heq : a + 1 + q' = a + (q' + 1) := by omega
        rw [heq] at hj2
        refine ⟨j, by omega, ?_⟩
        rw [List.getD_cons_succ]
        exact hj2

/-- Union-find merge step from the spec's verification recipe: an edge must
join two distinct components, which are then merged. -/
def ufStep (c : Int → Int) (e : Int × Int) : Option (Int → Int) :=
  if c e.1 = c e.2 then none
  else some (fun x => if c x = c e.1 then c e.2 else c x)

/-- Run union-find over the edges in order; `none` when some edge joins an
already-connected pair (which would close a cycle). -/
def ufRun : List (Int × Int) → (Int → Int) → Option (Int → Int)
  | [], c => some c
  | e :: es, c =>
    match ufStep c e with
    | none => none
    | some c' => ufRun es c'

/-- After processing the attachments for positions < a, the placed vertices
form one component rooted at `perm[0]` and everything else is untouched. -/
def ufInv (p : List Int) (a : Nat) (c : Int → Int) : Prop :=
  (∀ i, i < a → c (p.getD i 0) = p.getD 0 0)
  ∧ (∀ y : Int, (∀ i, i < a → p.getD i 0 ≠ y) → c y = y)

theorem uf_tree (p : List Int) (hp : p.Nodup) :
    ∀ (es : List (Int × Int)) (a : Nat) (c : Int → Int), 1 ≤ a →
    a + es.length ≤ p.length →
    (∀ q, q < es.length → ∃ j, j < a + q ∧
      es.getD q (0, 0) = (p.getD (a + q) 0, p.getD j 0)) →
    ufInv p a c →
    ∃ c', ufRun es c = some c' ∧ ufInv p (a + es.length) c' := by
  intro es
  induction es with
  | nil =>
    intro a c ha hlen hshape hinv
    exact ⟨c, rfl, by simpa using hinv⟩
  | cons e es' ih =>
    intro a c ha hlen hshape hinv
    rw [List.length_cons] at hlen
    have ha_lt : a < p.length := by omega
    have h0_lt : 0 < p.length := by omega
    obtain ⟨j, hj1, hj2⟩ := hshape 0 (by simp)
    rw [List.getD_cons_zero] at hj2
    have hju : j < a := by omega
    have hc1 : c e.1 = p.getD a 0 := by
      rw [hj2]
      exact hinv.2 _ (fun i hi => nodup_getD_ne p hp (by omega) ha_lt (by omega))
    have hc2 : c e.2 = p.getD 0 0 := by
      rw [hj2]
      exact hinv.1 j hju
    have hne : p.getD a 0 ≠ p.getD 0 0 :=
      nodup_getD_ne p hp ha_lt h0_lt (by omega)
    have hstep : ufStep c e = some (fun x => if c x = c e.1 then c e.2 else c x) := by
      unfold ufStep
      rw [if_neg]
      rw [hc1, hc2]
      exact hne
    have hinv' : ufInv p (a + 1) (fun x => if c x = c e.1 then c e.2 else c x) := by
      constructor
      · intro i hi
        by_cases hia : i < a
        · have : c (p.getD i 0) = p.getD 0 0 := hinv.1 i hia
          simp only [this, hc1, hc2]
          rw [if_neg (Ne.symm hne)]
        · have hia' : i = a := by omega
          subst hia'
          have : c (p.getD i 0) = p.getD i 0 :=
            hinv.2 _ (fun k hk => nodup_getD_ne p hp (by omega) (by omega) (by omega))
          simp only [this, hc1, hc2]
          simp
      · intro y hy
        have hy' : ∀ i, i < a → p.getD i 0 ≠ y := fun i hi => hy i (by omega)
        have hcy : c y = y := hinv.2 y hy'
        simp only [hcy, hc1]
        rw [if_neg]
        exact Ne.symm (hy a (by omega))
    obtain ⟨c', hrun, hinv''⟩ := ih (a + 1)
      (fun x => if c x = c e.1 then c e.2 else c x) (by omega) (by omega)
      (fun q hq => by
        obtain ⟨j', hj'1, hj'2⟩ := hshape (q + 1) (by simpa using hq)
        rw [List.getD_cons_succ] at hj'2
        refine ⟨j', by omega, ?_⟩
        rw [hj'2]
        congr 2
        omega) hinv'
    refine ⟨c', ?_, by
      have heq2 : a + 1 + es'.length = a + (es'.length + 1) := by omega
      rw [heq2] at hinv''
      simpa using hinv''⟩
    show ufRun (e :: es') c = some c'
    unfold ufRun
    rw [hstep]
    exact hrun

theorem treeGen_ok {n : Nat} {s : RS} {es : List (Int × Int)} {t : RS}
    (h : treeGen n s = .ok (es, t)) :
    n ≠ 0 ∧ es = (treeFold (permGen n 1 s).1 (List.range' 1 (n - 1)) [] (permGen n 1 s).2).1 := by
  by_cases hn : n = 0
  · rw [treeGen, if_pos hn] at h
    cases h
  · rw [treeGen, if_neg hn] at h
    injection h with h2
    exact ⟨hn, congrArg Prod.fst h2.symm⟩

theorem tree_edges_spec (n : Nat) (s : RS) (es : List (Int × Int)) (t : RS)
    (h : treeGen n s = .ok (es, t)) :
    es.length = n - 1
    ∧ ∀ q, q < n - 1 → ∃ j, j ≤ q ∧
        es.getD q (0, 0) = ((permGen n 1 s).1.getD (q + 1) 0, (permGen n 1 s).1.getD j 0) := by
  obtain ⟨hn, hes⟩ := treeGen_ok h
  obtain ⟨tail, h1, h2, h3⟩ :=
    treeFold_shape (permGen n 1 s).1 (n - 1) 1 [] (permGen n 1 s).2 (by omega)
  rw [← hes] at h1
  rw [List.nil_append] at h1
  subst h1
  refine ⟨h2, ?_⟩
  intro q hq
  obtain ⟨j, hj1, hj2⟩ := h3 q (by omega)
  have heq : 1 + q = q + 1 := by omega
  rw [heq] at hj2
  exact ⟨j, by omega, hj2⟩

theorem tree_uf_spec (n : Nat) (s : RS) (es : List (Int × Int)) (t : RS)
    (h : treeGen n s = .ok (es, t)) :
    ∃ c, ufRun es (fun x => x) = some c
      ∧ ∀ v : Int, 1 ≤ v → v ≤ (n : Int) → c v = c 1 := by
  obtain ⟨hn, _⟩ := treeGen_ok h
  obtain ⟨hlen, hshape⟩ := tree_edges_spec n s es t h
  have hplen : (permGen n 1 s).1.length = n := permGen_length n 1 s
  have hpnd : (permGen n 1 s).1.Nodup := permGen_nodup n 1 s
  obtain ⟨c, hrun, hinv⟩ := uf_tree (permGen n 1 s).1 hpnd es 1 (fun x => x)
    (le_refl 1) (by omega)
    (fun q hq => by
      obtain ⟨j, hj1, hj2⟩ := hshape q (by omega)
      have heq : q + 1 = 1 + q := by omega
      rw [heq] at hj2
      exact ⟨j, by omega, hj2⟩)
    ⟨fun i hi => by
        have : i = 0 := by omega
        subst this
        rfl,
      fun y hy => rfl⟩
  have hmem_idx : ∀ v : Int, 1 ≤ v → v ≤ (n : Int) → c v = (permGen n 1 s).1.getD 0 0 := by
    intro v h1 h2
    have hv : v ∈ (permGen n 1 s).1 := (permGen_mem n 1 s).mpr ⟨h1, by omega⟩
    obtain ⟨i, hi, hvi⟩ := List.mem_iff_getElem.mp hv
    have : (permGen n 1 s).1.getD i 0 = v := by
      rw [List.getD_eq_getElem _ 0 hi]
      exact hvi
    rw [← this]
    refine hinv.1 i ?_
    omega
  refine ⟨c, hrun, ?_⟩
  intro v h1 h2
  rw [hmem_idx v h1 h2, hmem_idx 1 (le_refl 1) (by omega)]

theorem tree_mem_bounds (n : Nat) (s : RS) (es : List (Int × Int)) (t : RS)
    (h : treeGen n s = .ok (es, t)) :
    ∀ e ∈ es, (1 ≤ e.1 ∧ e.1 ≤ (n : Int)) ∧ (1 ≤ e.2 ∧ e.2 ≤ (n : Int)) := by
  obtain ⟨hlen, hshape⟩ := tree_edges_spec n s es t h
  have hplen : (permGen n 1 s).1.length = n := permGen_length n 1 s
  intro e he
  obtain ⟨q, hq, hqe⟩ := List.mem_iff_getElem.mp he
  rw [hlen] at hq
  obtain ⟨j, hj1, hj2⟩ := hshape q hq
  have hgq : es.getD q (0, 0) = e := by
    rw [List.getD_eq_getElem _ _ (by omega)]
    exact hqe
  rw [hgq] at hj2
  have hb1 : (permGen n 1 s).1.getD (q + 1) 0 ∈ (permGen n 1 s).1 := by
    rw [List.getD_eq_getElem _ 0 (by omega)]
    exact List.getElem_mem _
  have hb2 : (permGen n 1 s).1.getD j 0 ∈ (permGen n 1 s).1 := by
    rw [List.getD_eq_getElem _ 0 (by omega)]
    exact List.getElem_mem _
  rw [permGen_mem] at hb1 hb2
  rw [hj2]
  constructor
  · constructor
    · exact hb1.1
    · have := hb1.2
      omega
  · constructor
    · exact hb2.1
    · have := hb2.2
      omega

/-- C4: any result of `Tree(n)` has exactly n-1 edges over vertex labels in
[1, n]; the q-th edge attaches the (q+1)-th permuted vertex to one of the
first q+1 vertices in permutation order; and union-find over the edges
succeeds (every edge joins two previously separate components) ending with
a single component containing all of [1, n]. -/
theorem tree_spanning (n : Nat) (s : RS) (es : List (Int × Int)) (t : RS)
    (h : treeGen n s = .ok (es, t)) :
    es.length = n - 1
    ∧ (∀ e ∈ es, (1 ≤ e.1 ∧ e.1 ≤ (n : Int)) ∧ (1 ≤ e.2 ∧ e.2 ≤ (n : Int)))
    ∧ (∀ q, q < n - 1 → ∃ j, j ≤ q ∧
        es.getD q (0, 0) = ((permGen n 1 s).1.getD (q + 1) 0, (permGen n 1 s).1.getD j 0))
    ∧ (∃ c, ufRun es (fun x => x) = some c
        ∧ ∀ v : Int, 1 ≤ v → v ≤ (n : Int) → c v = c 1) :=
  ⟨(tree_edges_spec n s es t h).1, tree_mem_bounds n s es t h,
    (tree_edges_spec n s es t h).2, tree_uf_spec n s es t h⟩

/-- C6: strategy dispatch by the 10x density threshold: when the domain size
is at most 10n, `uniqueSample` IS the shuffle-the-whole-domain path (always
succeeding with n values); otherwise it IS the rejection-sampling path.
Concretely, `uniqueSample(5, 1, 50)` takes the shuffle-all path, and
`uniqueSample(3, 1, 1000000)` takes the rejection path and any collection it
returns has exactly 3 distinct values in [1, 1000000] (there is a stream on
which the rejection path succeeds). -/
theorem uniqueSample_density_strategy (n : Nat) (l r : Int) (fuel : Nat) (s : RS)
    (h : l ≤ r) (hn : (n : Int) ≤ r - l + 1) :
    (r - l + 1 ≤ 10 * (n : Int) →
      uniqueSample n l r fuel s = .ok (usShuffleAll n l r s)
      ∧ (usShuffleAll n l r s).1.length = n)
    ∧ (10 * (n : Int) < r - l + 1 →
      uniqueSample n l r fuel s = usRejection fuel n l r [] s)
    ∧ uniqueSample 5 1 50 fuel s = .ok (usShuffleAll 5 1 50 s)
    ∧ (∀ v t, uniqueSample 3 1 1000000 fuel s = .ok (v, t) →
        uniqueSample 3 1 1000000 fuel s = usRejection fuel 3 1 1000000 [] s
        ∧ v.length = 3 ∧ v.Nodup ∧ ∀ x ∈ v, 1 ≤ x ∧ x ≤ 1000000)
    ∧ (usRejection 3 3 1 1000000 [] [0, 1, 2]).isOk = true := by
  refine ⟨?_, ?_, ?_, ?_, by decide⟩
  · intro hd
    exact ⟨uniqueSample_dense n l r fuel s h hn hd,
      (usShuffleAll_spec n l r s h hn).1⟩
  · intro hd
    exact uniqueSample_sparse n l r fuel s h hn (by omega)
  · exact uniqueSample_dense 5 1 50 fuel s (by omega) (by omega) (by omega)
  · intro v t hok
    have hsp : uniqueSample 3 1 1000000 fuel s = usRejection fuel 3 1 1000000 [] s :=
      uniqueSample_sparse 3 1 1000000 fuel s (by omega) (by omega) (by omega)
    have := uniqueSample_ok 3 1 1000000 fuel s (by omega) v t hok
    exact ⟨hsp, this.2.1, this.2.2.1, this.2.2.2⟩

/-- C6 witness: a concrete boundary-dense call (n = 2 over the domain
[0, 9], domain size 10 = 10n). -/
theorem uniqueSample_density_strategy_witness :
    ((9 : Int) - 0 + 1 ≤ 10 * ((2 : Nat) : Int) →
      uniqueSample 2 0 9 0 [] = .ok (usShuffleAll 2 0 9 [])
      ∧ (usShuffleAll 2 0 9 []).1.length = 2)
    ∧ (10 * ((2 : Nat) : Int) < 9 - 0 + 1 →
      uniqueSample 2 0 9 0 [] = usRejection 0 2 0 9 [] [])
    ∧ uniqueSample 5 1 50 0 [] = .ok (usShuffleAll 5 1 50 [])
    ∧ (∀ v t, uniqueSample 3 1 1000000 0 [] = .ok (v, t) →
        uniqueSample 3 1 1000000 0 [] = usRejection 0 3 1 1000000 [] []
        ∧ v.length = 3 ∧ v.Nodup ∧ ∀ x ∈ v, 1 ≤ x ∧ x ≤ 1000000)
    ∧ (usRejection 3 3 1 1000000 [] [0, 1, 2]).isOk = true :=
  uniqueSample_density_strategy 2 0 9 0 [] (by decide) (by decide)

/-- Insertion into the ordered `std::set<array<long long, 2>>`: keeps the
list sorted lexicographically, no-op when the key is present. -/
def setInsert (e : Int × Int) : List (Int × Int) → List (Int × Int)
  | [] => [e]
  | f :: rest =>
    if e = f then f :: rest
    else if e.1 < f.1 ∨ (e.1 = f.1 ∧ e.2 < f.2) then e :: f :: rest
    else f :: setInsert e rest

theorem mem_setInsert (e x : Int × Int) :
    ∀ l : List (Int × Int), x ∈ setInsert e l ↔ x = e ∨ x ∈ l := by
  intro l
  induction l with
  | nil => simp [setInsert, eq_comm]
  | cons f rest ih =>
    unfold setInsert
    split_ifs with h1 h2
    · subst h1
      simp only [List.mem_cons]
      tauto
    · simp only [List.mem_cons]
    · simp only [List.mem_cons, ih]
      tauto

theorem length_setInsert_of_not_mem (e : Int × Int) :
    ∀ l : List (Int × Int), e ∉ l → (setInsert e l).length = l.length + 1 := by
  intro l
  induction l with
  | nil => intro h; rfl
  | cons f rest ih =>
    intro h
    have h1 : e ≠ f := fun hc => h (by rw [hc]; exact List.mem_cons_self f rest)
    have h2 : e ∉ rest := fun hc => h (List.mem_cons_of_mem f hc)
    unfold setInsert
    rw [if_neg h1]
    by_cases h3 : e.1 < f.1 ∨ (e.1 = f.1 ∧ e.2 < f.2)
    · rw [if_pos h3]
      rfl
    · rw [if_neg h3, List.length_cons, List.length_cons, ih h2]

theorem nodup_setInsert (e : Int × Int) (l : List (Int × Int))
    (he : e ∉ l) (hl : l.Nodup) : (setInsert e l).Nodup := by
  induction l with
  | nil => exact List.nodup_singleton e
  | cons f rest ih =>
    have h1 : e ≠ f := fun hc => he (by rw [hc]; exact List.mem_cons_self f rest)
    have h2 : e ∉ rest := fun hc => he (List.mem_cons_of_mem f hc)
    rw [List.nodup_cons] at hl
    unfold setInsert
    rw [if_neg h1]
    by_cases h3 : e.1 < f.1 ∨ (e.1 = f.1 ∧ e.2 < f.2)
    · rw [if_pos h3]
      rw [List.nodup_cons, List.nodup_cons]
      exact ⟨by simp [h1, h2], hl.1, hl.2⟩
    · rw [if_neg h3, List.nodup_cons]
      refine ⟨?_, ih h2 hl.2⟩
      rw [mem_setInsert]
      rintro (hc | hc)
      · exact h1 hc.symm
      · exact hl.1 hc

/-- Phase 1 of `Graph::generateEdges` (generator.h:526-532): walk the
permutation attachments while fewer than m edges are present, inserting
each ordered pair not yet in the set. -/
def gPhase1 (p : List Int) (m : Nat) : List Nat → List (Int × Int) → RS → List (Int × Int) × RS
  | [], es, s => (es, s)
  | i :: rest, es, s =>
    if es.length < m then
      gPhase1 p m rest
        (if (p.getD i 0, p.getD ((randInt 0 ((i : Int) - 1) s).1).toNat 0) ∈ es then es
          else setInsert (p.getD i 0, p.getD ((randInt 0 ((i : Int) - 1) s).1).toNat 0) es)
        (randInt 0 ((i : Int) - 1) s).2
    else (es, s)

/-- Phase 2 of `Graph::generateEdges` (generator.h:533-539): draw ordered
pairs u, v uniformly from [1, n], rejecting self-loops and pairs already in
the set, until m edges exist; `fuel` bounds the loop the C++ runs
unboundedly. -/
def gPhase2 (n m : Nat) : Nat → List (Int × Int) → RS → Except GErr (List (Int × Int) × RS)
  | 0, es, s => if m ≤ es.length then .ok (es, s) else .error .fuelOut
  | fuel + 1, es, s =>
    if es.length < m then
      let u := (randInt 1 (n : Int) s).1
      let s1 := (randInt 1 (n : Int) s).2
      let v := (randInt 1 (n : Int) s1).1
      let s2 := (randInt 1 (n : Int) s1).2
      gPhase2 n m fuel (if u ≠ v ∧ (u, v) ∉ es then setInsert (u, v) es else es) s2
    else .ok (es, s)

/-- Embeds `Graph::generateEdges(int n, int m)` (generator.h:520-541):
backbone phase over a fresh permutation, then random-pair fill; the final
`edges.assign(edgeSet.begin(), edgeSet.end())` hands back the ordered set. -/
def graphGen (n m : Nat) (fuel : Nat) (s : RS) : Except GErr (List (Int × Int) × RS) :=
  gPhase2 n m fuel
    (gPhase1 (permGen n 1 s).1 m (List.range' 1 (n - 1)) [] (permGen n 1 s).2).1
    (gPhase1 (permGen n 1 s).1 m (List.range' 1 (n - 1)) [] (permGen n 1 s).2).2

/-- Invariant carried by both phases: the edge set is duplicate-free (as
ordered pairs), self-loop-free, and no larger than m. -/
def edgeInv (m : Nat) (es : List (Int × Int)) : Prop :=
  es.Nodup ∧ (∀ e ∈ es, e.1 ≠ e.2) ∧ es.length ≤ m

theorem edgeInv_insert (m : Nat) (es : List (Int × Int)) (e : Int × Int)
    (hinv : edgeInv m es) (hne : e.1 ≠ e.2) (hmem : e ∉ es) (hlt : es.length < m) :
    edgeInv m (setInsert e es) := by
  refine ⟨nodup_setInsert e es hmem hinv.1, ?_, ?_⟩
  · intro f hf
    rw [mem_setInsert] at hf
    rcases hf with hf | hf
    · rw [hf]; exact hne
    · exact hinv.2.1 f hf
  · rw [length_setInsert_of_not_mem e es hmem]
    omega

theorem gPhase1_inv (p : List Int) (hp : p.Nodup) (m : Nat) :
    ∀ (idx : List Nat) (es : List (Int × Int)) (s : RS),
    (∀ i ∈ idx, 1 ≤ i ∧ i < p.length) → edgeInv m es →
    edgeInv m (gPhase1 p m idx es s).1 := by
  intro idx
  induction idx with
  | nil => intro es s hidx hinv; exact hinv
  | cons i rest ih =>
    intro es s hidx hinv
    have hi := hidx i (List.mem_cons_self i rest)
    have hrest : ∀ k ∈ rest, 1 ≤ k ∧ k < p.length :=
      fun k hk => hidx k (List.mem_cons_of_mem i hk)
    unfold gPhase1
    by_cases hlt : es.length < m
    · rw [if_pos hlt]
      refine ih _ _ hrest ?_
      by_cases hmem : (p.getD i 0, p.getD ((randInt 0 ((i : Int) - 1) s).1).toNat 0) ∈ es
      · rw [if_pos hmem]; exact hinv
      · rw [if_neg hmem]
        refine edgeInv_insert m es _ hinv ?_ hmem hlt
        have hj := randIdx_lt i s hi.1
        exact nodup_getD_ne p hp (by omega) (by omega) (by omega)
    · rw [if_neg hlt]
      exact hinv

theorem gPhase2_ok (n m : Nat) :
    ∀ (fuel : Nat) (es : List (Int × Int)) (s : RS) (v : List (Int × Int)) (t : RS),
    edgeInv m es → gPhase2 n m fuel es s = .ok (v, t) →
    v.length = m ∧ v.Nodup ∧ ∀ e ∈ v, e.1 ≠ e.2 := by
  intro fuel
  induction fuel with
  | zero =>
    intro es s v t hinv h
    unfold gPhase2 at h
    by_cases hc : m ≤ es.length
    · rw [if_pos hc] at h
      cases h
      exact ⟨by have := hinv.2.2; omega, hinv.1, hinv.2.1⟩
    · rw [if_neg hc] at h
      cases h
  | succ fuel ih =>
    intro es s v t hinv h
    unfold gPhase2 at h
    by_cases hc : es.length < m
    · rw [if_pos hc] at h
      simp only at h
      refine ih _ _ v t ?_ h
      by_cases hcond : (randInt 1 (n : Int) s).1 ≠ (randInt 1 (n : Int) (randInt 1 (n : Int) s).2).1
          ∧ ((randInt 1 (n : Int) s).1, (randInt 1 (n : Int) (randInt 1 (n : Int) s).2).1) ∉ es
      · rw [if_pos hcond] at h ⊢
        exact edgeInv_insert m es _ hinv hcond.1 hcond.2 hc
      · rw [if_neg hcond] at h ⊢
        exact hinv
    · rw [if_neg hc] at h
      cases h
      exact ⟨by have := hinv.2.2; omega, hinv.1, hinv.2.1⟩

theorem graphGen_ok (n m fuel : Nat) (s : RS) (es : List (Int × Int)) (t : RS)
    (h : graphGen n m fuel s = .ok (es, t)) :
    es.length = m ∧ es.Nodup ∧ ∀ e ∈ es, e.1 ≠ e.2 := by
  have hb : edgeInv m (gPhase1 (permGen n 1 s).1 m (List.range' 1 (n - 1)) []
      (permGen n 1 s).2).1 := by
    refine gPhase1_inv (permGen n 1 s).1 (permGen_nodup n 1 s) m _ _ _ ?_
      ⟨List.nodup_nil, fun e he => absurd he (List.not_mem_nil e), by simp⟩
    intro i hi
    rw [List.mem_range'_1] at hi
    rw [permGen_length]
    omega
  have := gPhase2_ok n m fuel _ _ es t hb h
  exact ⟨this.1, this.2⟩

/-- The claim's undirected distinctness: no two edges at distinct positions
are equal as unordered pairs. -/
abbrev undirOk (es : List (Int × Int)) : Prop :=
  es.Pairwise (fun e f => ¬ (e = f ∨ (e.1 = f.2 ∧ e.2 = f.1)))

/-- C1 (amended): for 0 ≤ m ≤ n(n-1)/2, whenever `Graph(n, m)` returns it
returns exactly m edges, none a self-loop, with no duplicate edges as
ORDERED pairs; deduplication is by ordered pair, so the same undirected
edge may appear in both orientations. -/
theorem graph_simple_edges (n m fuel : Nat) (s : RS) (hm : m ≤ n * (n - 1) / 2)
    (es : List (Int × Int)) (t : RS) (h : graphGen n m fuel s = .ok (es, t)) :
    es.length = m ∧ (∀ e ∈ es, e.1 ≠ e.2) ∧ es.Nodup := by
  have hspec := graphGen_ok n m fuel s es t h
  exact ⟨hspec.1, hspec.2.2, hspec.2.1⟩

/-- C1 witness: `Graph(1, 0)` on the empty stream returns the empty edge
list, satisfying the amended claim at m = 0 = n(n-1)/2. -/
theorem graph_simple_edges_witness :
    ([] : List (Int × Int)).length = 0 ∧ (∀ e ∈ ([] : List (Int × Int)), e.1 ≠ e.2)
    ∧ ([] : List (Int × Int)).Nodup :=
  graph_simple_edges 1 0 0 [] (by decide) [] [] rfl

/-- C1 counterexample: with n = 3 and m = 3 = n(n-1)/2, a run of
`Graph(3, 3)` returns (1,2) and (2,1) together - two edges that are equal
as undirected edges - because the edge set deduplicates ordered pairs. -/
theorem graph_undirected_dup_cex :
    graphGen 3 3 50 [2, 1, 0, 0, 0, 1] = .ok ([(1, 2), (2, 1), (3, 1)], [])
    ∧ ¬ undirOk [((1 : Int), (2 : Int)), (2, 1), (3, 1)]
    ∧ (3 : Nat) ≤ 3 * (3 - 1) / 2 :=
  ⟨rfl, by decide, by decide⟩

/-- Stream driving `Graph(5, 11)` to a successful return. -/
def csG2 : RS := [4, 3, 2, 1, 0, 0, 0, 0, 0, 1, 0, 2, 0, 3, 0, 4, 1, 2, 1, 3, 1, 4]

/-- Stream driving `Graph(5, 10)` to a successful return. -/
def csG2b : RS := [4, 3, 2, 1, 0, 0, 0, 0, 0, 1, 0, 2, 0, 3, 0, 4, 1, 2, 1, 3]

/-- C2 (amended): the code never compares m with n(n-1)/2 and has no
`TooManyEdges` failure.  Whenever `Graph(5, 10)` returns it has exactly 10
duplicate-free non-loop edges, while `Graph(5, 11)` - above the
simple-graph maximum - can return successfully with 11 edges instead of
failing. -/
theorem graph_max_edges (fuel : Nat) (s : RS) (es : List (Int × Int)) (t : RS)
    (h : graphGen 5 10 fuel s = .ok (es, t)) :
    es.length = 10 ∧ es.Nodup ∧ (∀ e ∈ es, e.1 ≠ e.2)
    ∧ (graphGen 5 11 200 csG2).toOption.map (fun r => r.1.length) = some 11
    ∧ (graphGen 5 11 200 csG2).isOk = true := by
  have h10 := graphGen_ok 5 10 fuel s es t h
  exact ⟨h10.1, h10.2.1, h10.2.2, rfl, rfl⟩

/-- C2 witness: a concrete successful `Graph(5, 10)` run with exactly 10
edges. -/
theorem graph_max_edges_witness :
    ([(1, 2), (1, 3), (1, 4), (1, 5), (2, 1), (2, 3), (2, 4), (3, 1), (4, 1),
        (5, 1)] : List (Int × Int)).length = 10
    ∧ ([(1, 2), (1, 3), (1, 4), (1, 5), (2, 1), (2, 3), (2, 4), (3, 1), (4, 1),
        (5, 1)] : List (Int × Int)).Nodup
    ∧ (∀ e ∈ ([(1, 2), (1, 3), (1, 4), (1, 5), (2, 1), (2, 3), (2, 4), (3, 1),
        (4, 1), (5, 1)] : List (Int × Int)), e.1 ≠ e.2)
    ∧ (graphGen 5 11 200 csG2).toOption.map (fun r => r.1.length) = some 11
    ∧ (graphGen 5 11 200 csG2).isOk = true :=
  graph_max_edges 200 csG2b
    [(1, 2), (1, 3), (1, 4), (1, 5), (2, 1), (2, 3), (2, 4), (3, 1), (4, 1), (5, 1)]
    [] rfl

/-- C2 counterexample: `Graph(5, 11)` does not fail with `TooManyEdges`; on
this stream it returns successfully, with 11 edges. -/
theorem graph_toomany_cex :
    (graphGen 5 11 200 csG2).toOption.map (fun r => r.1.length) = some 11
    ∧ (graphGen 5 11 200 csG2).isOk = true :=
  ⟨rfl, rfl⟩

/-- C4 witness: a concrete run of `Tree(3)` returning edges (2,1), (3,1). -/
theorem tree_spanning_witness :
    ([((2 : Int), (1 : Int)), (3, 1)] : List (Int × Int)).length = 3 - 1
    ∧ (∀ e ∈ ([((2 : Int), (1 : Int)), (3, 1)] : List (Int × Int)),
        (1 ≤ e.1 ∧ e.1 ≤ ((3 : Nat) : Int)) ∧ (1 ≤ e.2 ∧ e.2 ≤ ((3 : Nat) : Int)))
    ∧ (∀ q, q < 3 - 1 → ∃ j, j ≤ q ∧
        ([((2 : Int), (1 : Int)), (3, 1)] : List (Int × Int)).getD q (0, 0)
          = ((permGen 3 1 [2, 1, 0, 0]).1.getD (q + 1) 0,
             (permGen 3 1 [2, 1, 0, 0]).1.getD j 0))
    ∧ (∃ c, ufRun [((2 : Int), (1 : Int)), (3, 1)] (fun x => x) = some c
        ∧ ∀ v : Int, 1 ≤ v → v ≤ ((3 : Nat) : Int) → c v = c 1) :=
  tree_spanning 3 [2, 1, 0, 0] [(2, 1), (3, 1)] [] rfl

/-- State of `BinaryTree::generateEdges` (generator.h:457-478): `cc` models
`children_count` (a vector of length n, valid indices 0 .. n-1); `past` is
the content of the memory word just past the buffer, which the code reads
and writes through the out-of-bounds accesses `children_count[v]` at
v = n; `touched` records whether any such out-of-bounds access happened. -/
structure BTSt where
  edges : List (Int × Int)
  cc : List Int
  past : Int
  touched : Bool
  deriving DecidableEq, Repr

/-- Read `children_count[v]`: in bounds it is the stored counter, out of
bounds it is whatever sits past the buffer. -/
def ccRead (st : BTSt) (v : Nat) : Int × BTSt :=
  if v < st.cc.length then (st.cc.getD v 0, st)
  else (st.past, { st with touched := true })

/-- Increment `children_count[v]`, with the same out-of-bounds behaviour. -/
def ccInc (st : BTSt) (v : Nat) : BTSt :=
  if v < st.cc.length then { st with cc := st.cc.set v (st.cc.getD v 0 + 1) }
  else { st with past := st.past + 1, touched := true }

/-- The capacity-rejection while-loop of `BinaryTree::generateEdges`
(generator.h:469-474): redraw a parent among the first i permuted vertices
until one with `children_count[v] < 2` is found; `fuel` bounds the loop. -/
def btPick (p : List Int) (i : Nat) : Nat → BTSt → RS → Except GErr (Int × BTSt × RS)
  | 0, _, _ => .error .fuelOut
  | fuel + 1, st, s =>
    if (ccRead st ((p.getD ((randInt 0 ((i : Int) - 1) s).1).toNat 0).toNat)).1 < 2 then
      .ok (p.getD ((randInt 0 ((i : Int) - 1) s).1).toNat 0,
        (ccRead st ((p.getD ((randInt 0 ((i : Int) - 1) s).1).toNat 0).toNat)).2,
        (randInt 0 ((i : Int) - 1) s).2)
    else
      btPick p i fuel
        (ccRead st ((p.getD ((randInt 0 ((i : Int) - 1) s).1).toNat 0).toNat)).2
        (randInt 0 ((i : Int) - 1) s).2

/-- The outer loop of `BinaryTree::generateEdges` (generator.h:465-477):
attach each vertex to a picked parent, record the edge, and increment the
parent's child counter. -/
def btFold (p : List Int) (fuel : Nat) : List Nat → BTSt → RS → Except GErr (BTSt × RS)
  | [], st, s => .ok (st, s)
  | i :: rest, st, s =>
    match btPick p i fuel st s with
    | .error e => .error e
    | .ok (v, st', s') =>
      btFold p fuel rest
        (ccInc { st' with edges := st'.edges ++ [(p.getD i 0, v)] } v.toNat) s'

/-- Embeds `BinaryTree::generateEdges(int n)` (generator.h:457-478).
`past0` is the initial content of the memory word just past
`children_count`. -/
def btGen (n : Nat) (past0 : Int) (fuel : Nat) (s : RS) : Except GErr (BTSt × RS) :=
  if n = 0 then .error .invalidVertexCount
  else
    btFold (permGen n 1 s).1 fuel (List.range' 1 (n - 1))
      { edges := [], cc := List.replicate n 0, past := past0, touched := false }
      (permGen n 1 s).2

/-- How many edges name v as the attachment target (second endpoint). -/
def targetCount (es : List (Int × Int)) (v : Int) : Nat :=
  (es.filter (fun e => e.2 == v)).length

/-- C5: violated by the code.  In `BinaryTree(4)`, when the memory word past
`children_count` holds -5 and every parent draw lands on the vertex
labelled n = 4 (whose capacity counter lives out of bounds, see C10), the
run succeeds and returns a tree in which vertex 4 is the attachment target
of 3 > 2 edges: the binary-degree invariant is not enforced for vertex n. -/
theorem binaryTree_overfull_target :
    (btGen 4 (-5) 5 [2, 0, 1, 0, 0, 0]).toOption.map
      (fun r => targetCount r.1.edges 4) = some 3
    ∧ (btGen 4 (-5) 5 [2, 0, 1, 0, 0, 0]).isOk = true :=
  ⟨rfl, rfl⟩

/-- C10: violated by the code.  Already in `BinaryTree(2)`, when the
permutation places label 2 = n first, the parent pick reads
`children_count[2]` on the 2-element `children_count` vector and the
subsequent increment writes it: reads and writes out of bounds. -/
theorem binaryTree_oob_access :
    (btGen 2 0 5 [0, 0]).toOption.map (fun r => r.1.touched) = some true
    ∧ (btGen 2 0 5 [0, 0]).toOption.map (fun r => r.1.cc.length) = some 2 :=
  ⟨rfl, rfl⟩
